import Mathlib

/-!
Shallow embedding of the catalog query-and-inventory engine of the
ecommerce repository (Django app `catalog`): product variants with the
conditional stock reduction, the category tree with soft deletion, and
the product listing pipeline with filtering and pagination.

Prices are modelled in cents as `Int` (the source stores `Decimal` values
with two decimal places), stock quantities as `Int` (the column is an
unsigned integer; nonnegativity is proved, not assumed), and soft
deletion (`deleted_at IS NOT NULL`) as a `deleted : Bool` flag.
-/

namespace Catalog

/-- Row of `catalog_product_variants` (model `ProductVariant`), restricted
to the fields the verified operations read or write. -/
structure Variant where
  id : Nat
  sku : String
  name : String
  price : Option Int
  stock_quantity : Int
  low_stock_threshold : Int
  is_active : Bool
  deleted : Bool
deriving Repr, DecidableEq

/-- `ProductVariant.reduce_stock`: the conditional UPDATE
`filter(pk=self.pk, stock_quantity__gte=quantity).update(stock_quantity=F(..) - quantity)`.
Returns whether a row was updated, together with the resulting stock. -/
def reduce_stock (stock quantity : Int) : Bool × Int :=
  if quantity ≤ stock then (true, stock - quantity) else (false, stock)

/-- `VariantService.update_stock` dispatch for a variant that was found,
holding the given current stock: returns the new stock on success or the
service error string on failure. -/
def update_stock (stock quantity : Int) (operation : String) : Option Int × Option String :=
  if operation = "set" then
    if quantity < 0 then (none, some ("Stock quantity cannot be negative."))
    else (some quantity, none)
  else if operation = "add" then (some (stock + quantity), none)
  else if operation = "reduce" then
    if (reduce_stock stock quantity).1 then (some (reduce_stock stock quantity).2, none)
    else (none, some ("Insufficient stock."))
  else (none, some ("Invalid operation. Use set, add, or reduce."))

/-- Final stock after a sequence of `reduce_stock` calls against one
variant (any serialization of concurrent callers: each conditional UPDATE
is atomic at the store). -/
def reduceStockSeq (stock : Int) : List Int → Int
  | [] => stock
  | q :: qs => reduceStockSeq (reduce_stock stock q).2 qs

/-- Sum of the quantities of those calls in the sequence that succeeded. -/
def successfulSum (stock : Int) : List Int → Int
  | [] => 0
  | q :: qs =>
      (if (reduce_stock stock q).1 then q else 0) + successfulSum (reduce_stock stock q).2 qs

theorem reduceStockSeq_eq_sub (stock : Int) (qs : List Int) :
    reduceStockSeq stock qs = stock - successfulSum stock qs := by
  induction qs generalizing stock with
  | nil => simp [reduceStockSeq, successfulSum]
  | cons q qs ih =>
    by_cases h : q ≤ stock
    · simp [reduceStockSeq, successfulSum, reduce_stock, h, ih]
      ring
    · simp [reduceStockSeq, successfulSum, reduce_stock, h, ih]

theorem reduceStockSeq_nonneg (stock : Int) (qs : List Int) (h : 0 ≤ stock) :
    0 ≤ reduceStockSeq stock qs := by
  induction qs generalizing stock with
  | nil => simpa [reduceStockSeq]
  | cons q qs ih =>
    simp only [reduceStockSeq, reduce_stock]
    by_cases hq : q ≤ stock
    · simp only [hq, if_true]
      exact ih _ (by omega)
    · simp only [hq, if_false]
      exact ih _ h

/-- Claim C1: for every variant and every sequence of reduceStock calls
against it, the stock quantity is never negative after any call, and the
sum of the deltas of the successful reductions never exceeds the initial
stock quantity. -/
theorem claim_C1 (stock : Int) (qs : List Int) (h : 0 ≤ stock) :
    0 ≤ reduceStockSeq stock qs ∧ successfulSum stock qs ≤ stock := by
  refine ⟨reduceStockSeq_nonneg stock qs h, ?_⟩
  have h2 := reduceStockSeq_eq_sub stock qs
  have h3 := reduceStockSeq_nonneg stock qs h
  omega

theorem claim_C1_witness :
    (0 : Int) ≤ 10 ∧
      (0 ≤ reduceStockSeq 10 [3, 4, 100, 5] ∧ successfulSum 10 [3, 4, 100, 5] ≤ 10) :=
  ⟨by decide, claim_C1 10 [3, 4, 100, 5] (by decide)⟩

/-- Claim C2: for every existing variant and every delta, reduceStock
succeeds iff the current stock is at least the delta; on failure it
returns false, the stock is unchanged and `update_stock` reports
InsufficientStock. -/
theorem claim_C2 (stock quantity : Int) :
    ((reduce_stock stock quantity).1 = true ↔ quantity ≤ stock) ∧
      ((reduce_stock stock quantity).1 = false →
        (reduce_stock stock quantity).2 = stock ∧
          update_stock stock quantity "reduce" = (none, some ("Insufficient stock."))) ∧
      (quantity ≤ stock →
        update_stock stock quantity "reduce" = (some (stock - quantity), none)) := by
  unfold update_stock reduce_stock
  by_cases h : quantity ≤ stock <;> simp [h]

theorem claim_C2_witness :
    ((reduce_stock 10 100).1 = false →
        (reduce_stock 10 100).2 = 10 ∧
          update_stock 10 100 "reduce" = (none, some ("Insufficient stock."))) ∧
      (reduce_stock 10 100).2 = 10 ∧
        update_stock 10 100 "reduce" = (none, some ("Insufficient stock.")) := by
  refine ⟨(claim_C2 10 100).2.1, (claim_C2 10 100).2.1 ?_⟩
  decide

/-! ## Variant partial updates (`VariantService.update_variant`) -/

/-- Partial update payload for `VariantService.update_variant`: `none`
models a field that is absent from the payload or explicitly null; the
source skips both (`if value is not None`). -/
structure VariantUpdate where
  sku : Option String := none
  name : Option String := none
  price : Option Int := none
  stock_quantity : Option Int := none
  low_stock_threshold : Option Int := none
  is_active : Option Bool := none
deriving Repr, DecidableEq

/-- The field loop of `VariantService.update_variant`: `setattr` for every
payload item whose value is not None, then save. -/
def update_variant_fields (v : Variant) (d : VariantUpdate) : Variant :=
  { v with
    sku := d.sku.getD v.sku,
    name := d.name.getD v.name,
    price := match d.price with
      | none => v.price
      | some x => some x,
    stock_quantity := d.stock_quantity.getD v.stock_quantity,
    low_stock_threshold := d.low_stock_threshold.getD v.low_stock_threshold,
    is_active := d.is_active.getD v.is_active }

/-- Claim C10: every None field of the payload is skipped, leaving the
stored field unchanged, and the price override can never be cleared back
to null through updateVariant. -/
theorem claim_C10 (v : Variant) (d : VariantUpdate) :
    (d.sku = none → (update_variant_fields v d).sku = v.sku) ∧
      (d.name = none → (update_variant_fields v d).name = v.name) ∧
      (d.price = none → (update_variant_fields v d).price = v.price) ∧
      (d.stock_quantity = none →
        (update_variant_fields v d).stock_quantity = v.stock_quantity) ∧
      (d.low_stock_threshold = none →
        (update_variant_fields v d).low_stock_threshold = v.low_stock_threshold) ∧
      (d.is_active = none → (update_variant_fields v d).is_active = v.is_active) ∧
      ((update_variant_fields v d).price = none → v.price = none) := by
  unfold update_variant_fields
  refine ⟨fun h => by simp [h], fun h => by simp [h], fun h => by simp [h],
    fun h => by simp [h], fun h => by simp [h], fun h => by simp [h], ?_⟩
  cases hd : d.price with
  | none => intro h; simpa using h
  | some x => intro h; simp at h

def exVariant10 : Variant :=
  { id := 2, sku := "SKU-2", name := "Var", price := some 500, stock_quantity := 3,
    low_stock_threshold := 5, is_active := true, deleted := false }

def exUpdate10 : VariantUpdate :=
  { name := some "NewName", stock_quantity := some 7 }

theorem claim_C10_witness :
    (update_variant_fields exVariant10 exUpdate10).price = exVariant10.price ∧
      (update_variant_fields exVariant10 exUpdate10).sku = exVariant10.sku := by
  have h := claim_C10 exVariant10 exUpdate10
  exact ⟨h.2.2.1 rfl, h.1 rfl⟩

/-! ## Products and their derived read-only views -/

/-- Row of `catalog_products` (model `Product`) together with its variant
rows, restricted to the fields the verified operations read. -/
structure Product where
  id : Nat
  name : String
  base_price : Int
  category_id : Nat
  is_active : Bool
  is_featured : Bool
  created_at : Int
  deleted : Bool
  variants : List Variant
deriving Repr, DecidableEq

/-- The reverse related manager `self.variants` followed by
`filter(is_active=True)`: the default manager of the related model
excludes soft-deleted rows. -/
def activeVariants (p : Product) : List Variant :=
  p.variants.filter (fun v => !v.deleted && v.is_active)

/-- `Product.total_stock`: Sum aggregate over active variants, `or 0` when
the aggregate is null. -/
def total_stock (p : Product) : Int :=
  ((activeVariants p).map (fun v => v.stock_quantity)).sum

/-- `Product.is_in_stock`: an active variant with stock above zero exists. -/
def is_in_stock (p : Product) : Bool :=
  (activeVariants p).any (fun v => decide (0 < v.stock_quantity))

/-- SQL Min aggregate: none over an empty set of rows. -/
def aggMin : List Int → Option Int
  | [] => none
  | x :: xs => some (match aggMin xs with
      | none => x
      | some m => min x m)

/-- SQL Max aggregate: none over an empty set of rows. -/
def aggMax : List Int → Option Int
  | [] => none
  | x :: xs => some (match aggMax xs with
      | none => x
      | some m => max x m)

/-- The non-null price overrides of the active variants
(`variants.filter(is_active=True, price__isnull=False)`). -/
def variantPrices (p : Product) : List Int :=
  (activeVariants p).filterMap (fun v => v.price)

/-- `Product.min_price`. The `if variant_min:` test of the source is
Python truthiness: both None and Decimal 0 fall through to base_price. -/
def min_price (p : Product) : Int :=
  match aggMin (variantPrices p) with
  | none => p.base_price
  | some m => if m = 0 then p.base_price else min m p.base_price

/-- `Product.max_price`, with the same truthiness test. -/
def max_price (p : Product) : Int :=
  match aggMax (variantPrices p) with
  | none => p.base_price
  | some m => if m = 0 then p.base_price else max m p.base_price

/-- Effective price per the glossary: a variant price override if set,
else the product base price. -/
def effective_price (base : Int) (v : Variant) : Int := v.price.getD base

/-- The extremum described by the spec: minimum over the active variants
effective prices together with the base price. -/
def specMinPrice (p : Product) : Int :=
  ((activeVariants p).map (effective_price p.base_price)).foldr min p.base_price

/-- The extremum described by the spec: maximum over the active variants
effective prices together with the base price. -/
def specMaxPrice (p : Product) : Int :=
  ((activeVariants p).map (effective_price p.base_price)).foldr max p.base_price

/-- The sum described by the spec: total stock of the active variants. -/
def specTotalStock (p : Product) : Int :=
  ((activeVariants p).map (fun v => v.stock_quantity)).foldr (fun a b => a + b) 0

theorem foldr_min_effective (base : Int) (l : List Variant) :
    (l.map (effective_price base)).foldr min base
      = match aggMin (l.filterMap (fun v => v.price)) with
        | none => base
        | some m => min m base := by
  induction l with
  | nil => rfl
  | cons v l ih =>
    cases hv : v.price with
    | none =>
      simp only [List.map_cons, List.foldr_cons, List.filterMap_cons, hv, effective_price,
        Option.getD_none, ih]
      cases aggMin (l.filterMap fun v => v.price) with
      | none => exact min_self base
      | some m => rw [min_left_comm, min_self]
    | some pr =>
      simp only [List.map_cons, List.foldr_cons, List.filterMap_cons, hv, effective_price,
        Option.getD_some, ih, aggMin]
      cases aggMin (l.filterMap fun v => v.price) with
      | none => rfl
      | some m => exact (min_assoc pr m base).symm

theorem foldr_max_effective (base : Int) (l : List Variant) :
    (l.map (effective_price base)).foldr max base
      = match aggMax (l.filterMap (fun v => v.price)) with
        | none => base
        | some m => max m base := by
  induction l with
  | nil => rfl
  | cons v l ih =>
    cases hv : v.price with
    | none =>
      simp only [List.map_cons, List.foldr_cons, List.filterMap_cons, hv, effective_price,
        Option.getD_none, ih]
      cases aggMax (l.filterMap fun v => v.price) with
      | none => exact max_self base
      | some m => rw [max_left_comm, max_self]
    | some pr =>
      simp only [List.map_cons, List.foldr_cons, List.filterMap_cons, hv, effective_price,
        Option.getD_some, ih, aggMax]
      cases aggMax (l.filterMap fun v => v.price) with
      | none => rfl
      | some m => exact (max_assoc pr m base).symm

theorem specMinPrice_eq (p : Product) :
    specMinPrice p
      = match aggMin (variantPrices p) with
        | none => p.base_price
        | some m => min m p.base_price :=
  foldr_min_effective p.base_price (activeVariants p)

theorem specMaxPrice_eq (p : Product) :
    specMaxPrice p
      = match aggMax (variantPrices p) with
        | none => p.base_price
        | some m => max m p.base_price :=
  foldr_max_effective p.base_price (activeVariants p)

/-- A variant with a price override of Decimal 0. -/
def zeroPriceVariant : Variant :=
  { id := 1, sku := "V0", name := "Zero", price := some 0, stock_quantity := 1,
    low_stock_threshold := 5, is_active := true, deleted := false }

/-- A product whose only active variant is priced 0, against base 999.99. -/
def zeroPriceProduct : Product :=
  { id := 1, name := "P", base_price := 99999, category_id := 1, is_active := true,
    is_featured := false, created_at := 0, deleted := false,
    variants := [zeroPriceVariant] }

/-- Counterexample to claim C7 as stated: for a product with base price
999.99 and one active variant priced 0.00, the spec extremum is 0 but the
code returns the base price, because Decimal 0 is falsy in Python. -/
theorem counterexample_C7 :
    min_price zeroPriceProduct = 99999 ∧ specMinPrice zeroPriceProduct = 0 ∧
      min_price zeroPriceProduct ≠ specMinPrice zeroPriceProduct := by
  refine ⟨by decide, by decide, by decide⟩

/-- Claim C7 (amended): total stock and in-stock are exactly as claimed;
min_price and max_price equal the spec extrema over active variants
effective prices together with the base price, provided the aggregated
variant override minimum (resp. maximum) is not 0 (a zero aggregate is
falsy in Python and falls back to the base price). -/
theorem claim_C7_amended (p : Product)
    (hmin : aggMin (variantPrices p) ≠ some 0)
    (hmax : aggMax (variantPrices p) ≠ some 0) :
    total_stock p = specTotalStock p ∧
      (is_in_stock p = true ↔ ∃ v ∈ activeVariants p, 0 < v.stock_quantity) ∧
      min_price p = specMinPrice p ∧
      max_price p = specMaxPrice p := by
  refine ⟨?_, ?_, ?_, ?_⟩
  · simp [total_stock, specTotalStock, List.sum]
  · simp [is_in_stock, List.any_eq_true]
  · rw [specMinPrice_eq, min_price]
    cases h : aggMin (variantPrices p) with
    | none => rfl
    | some m =>
      have hm : m ≠ 0 := by
        intro h0
        exact hmin (h0 ▸ h)
      simp [hm]
  · rw [specMaxPrice_eq, max_price]
    cases h : aggMax (variantPrices p) with
    | none => rfl
    | some m =>
      have hm : m ≠ 0 := by
        intro h0
        exact hmax (h0 ▸ h)
      simp [hm]

/-- The scenario product of the claim: base 999.99, variants priced
899.99 with stock 10, null with stock 5, 1099.99 with stock 0. -/
def scenarioProduct : Product :=
  { id := 3, name := "Test Phone", base_price := 99999, category_id := 1,
    is_active := true, is_featured := false, created_at := 0, deleted := false,
    variants :=
      [{ id := 31, sku := "TP-1", name := "A", price := some 89999, stock_quantity := 10,
         low_stock_threshold := 5, is_active := true, deleted := false },
       { id := 32, sku := "TP-2", name := "B", price := none, stock_quantity := 5,
         low_stock_threshold := 5, is_active := true, deleted := false },
       { id := 33, sku := "TP-3", name := "C", price := some 109999, stock_quantity := 0,
         low_stock_threshold := 5, is_active := true, deleted := false }] }

theorem claim_C7_witness :
    (total_stock scenarioProduct = specTotalStock scenarioProduct ∧
        (is_in_stock scenarioProduct = true ↔
          ∃ v ∈ activeVariants scenarioProduct, 0 < v.stock_quantity) ∧
        min_price scenarioProduct = specMinPrice scenarioProduct ∧
        max_price scenarioProduct = specMaxPrice scenarioProduct) ∧
      min_price scenarioProduct = 89999 ∧ max_price scenarioProduct = 109999 ∧
      total_stock scenarioProduct = 15 ∧ is_in_stock scenarioProduct = true := by
  refine ⟨claim_C7_amended scenarioProduct (by decide) (by decide), ?_, ?_, ?_, ?_⟩
  · decide
  · decide
  · decide
  · decide

/-! ## The category tree

Rows of `catalog_categories` (model `Category`). The MPTT tree columns
maintained by django-mptt span every row, soft-deleted ones included, so
tree reachability below is computed over all rows, while primary-key
lookups through the default manager (`Category.objects.get`) skip
soft-deleted rows. -/

structure Category where
  id : Nat
  name : String
  slug : String
  parent : Option Nat
  is_active : Bool
  deleted : Bool
deriving Repr, DecidableEq

/-- `Category.objects.get(pk=i)`: the default manager excludes
soft-deleted rows. -/
def findCategory (cats : List Category) (i : Nat) : Option Category :=
  cats.find? (fun c => c.id == i && !c.deleted)

/-- Primary-key lookup over all rows, soft-deleted ones included. -/
def findCategoryAll (cats : List Category) (i : Nat) : Option Category :=
  cats.find? (fun c => c.id == i)

/-- The parent edge of the tree, read from the row regardless of soft
deletion. -/
def parentOfAll (cats : List Category) (i : Nat) : Option Nat :=
  (findCategoryAll cats i).bind (fun c => c.parent)

/-- One step up a parent map: a has parent b. -/
def stepFn (f : Nat → Option Nat) (a b : Nat) : Prop := f a = some b

/-- A parent map is acyclic when no node is its own proper ancestor. -/
def Acyclic (f : Nat → Option Nat) : Prop :=
  ∀ i, ¬ Relation.TransGen (stepFn f) i i

/-- Iterate a parent map k times. -/
def iterParent (f : Nat → Option Nat) : Nat → Nat → Option Nat
  | 0, i => some i
  | k + 1, i => (f i).bind (iterParent f k)

/-- The ancestors of i, following at most fuel parent edges upward. -/
def ancestorsUp (f : Nat → Option Nat) : Nat → Nat → List Nat
  | 0, _ => []
  | fuel + 1, i =>
    match f i with
    | none => []
    | some p => p :: ancestorsUp f fuel p

/-- Membership in the subtree below a, as django-mptt get_descendants
computes it from the tree columns: d lies strictly below a when the
chain of parent edges starting at d reaches a. On well-formed (acyclic)
stores, `cats.length` edges suffice, as proved below. -/
def isDescendantOf (cats : List Category) (d a : Nat) : Bool :=
  decide (a ∈ ancestorsUp (parentOfAll cats) cats.length d)

theorem findCategory_eq_some {cats : List Category} {i : Nat} {cat : Category}
    (h : findCategory cats i = some cat) :
    cat.id = i ∧ cat.deleted = false ∧ cat ∈ cats := by
  have hp := List.find?_some h
  have hm := List.mem_of_find?_eq_some h
  simp only [Bool.and_eq_true, beq_iff_eq, Bool.not_eq_true'] at hp
  exact ⟨hp.1, hp.2, hm⟩

theorem findCategoryAll_eq_some {cats : List Category} {i : Nat} {cat : Category}
    (h : findCategoryAll cats i = some cat) :
    cat.id = i ∧ cat ∈ cats := by
  have hp := List.find?_some h
  have hm := List.mem_of_find?_eq_some h
  simp only [beq_iff_eq] at hp
  exact ⟨hp, hm⟩

theorem iterParent_add (f : Nat → Option Nat) (a b i : Nat) :
    iterParent f (a + b) i = (iterParent f a i).bind (iterParent f b) := by
  induction a generalizing i with
  | zero => simp [iterParent]
  | succ a ih =>
    have ha : a + 1 + b = (a + b) + 1 := by omega
    rw [ha]
    show (f i).bind (iterParent f (a + b)) = ((f i).bind (iterParent f a)).bind (iterParent f b)
    cases f i with
    | none => rfl
    | some j => exact ih j

theorem transGen_iff_iterParent (f : Nat → Option Nat) (d c : Nat) :
    Relation.TransGen (stepFn f) d c ↔ ∃ k, iterParent f (k + 1) d = some c := by
  constructor
  · intro h
    induction h with
    | single h1 =>
      refine ⟨0, ?_⟩
      show (f d).bind (iterParent f 0) = _
      rw [h1]
      rfl
    | @tail b x _ h2 ih =>
      obtain ⟨k, hk⟩ := ih
      refine ⟨k + 1, ?_⟩
      rw [iterParent_add f (k + 1) 1 d, hk]
      show (f b).bind (iterParent f 0) = _
      rw [h2]
      rfl
  · rintro ⟨k, hk⟩
    induction k generalizing d with
    | zero =>
      cases hf : f d with
      | none =>
        exfalso
        have : (f d).bind (iterParent f 0) = some c := hk
        rw [hf] at this
        simp at this
      | some j =>
        have : (f d).bind (iterParent f 0) = some c := hk
        rw [hf] at this
        have hj : j = c := by simpa [iterParent] using this
        exact Relation.TransGen.single (show f d = some c by rw [hf, hj])
    | succ k ih =>
      cases hf : f d with
      | none =>
        exfalso
        have : (f d).bind (iterParent f (k + 1)) = some c := hk
        rw [hf] at this
        simp at this
      | some j =>
        have : (f d).bind (iterParent f (k + 1)) = some c := hk
        rw [hf] at this
        exact Relation.TransGen.head hf (ih j this)

theorem mem_ancestorsUp_iff (f : Nat → Option Nat) (c : Nat) (fuel d : Nat) :
    c ∈ ancestorsUp f fuel d ↔ ∃ k, k < fuel ∧ iterParent f (k + 1) d = some c := by
  induction fuel generalizing d with
  | zero => simp [ancestorsUp]
  | succ fuel ih =>
    cases hf : f d with
    | none =>
      simp only [ancestorsUp, hf, List.not_mem_nil, false_iff, not_exists]
      intro k hk
      have : (f d).bind (iterParent f k) = some c := hk.2
      rw [hf] at this
      simp at this
    | some p =>
      simp only [ancestorsUp, hf, List.mem_cons, ih]
      constructor
      · rintro (rfl | ⟨k, hk, hik⟩)
        · refine ⟨0, by omega, ?_⟩
          show (f d).bind (iterParent f 0) = _
          rw [hf]
          rfl
        · refine ⟨k + 1, by omega, ?_⟩
          show (f d).bind (iterParent f (k + 1)) = _
          rw [hf]
          exact hik
      · rintro ⟨k, hk, hik⟩
        cases k with
        | zero =>
          left
          have : (f d).bind (iterParent f 0) = some c := hik
          rw [hf] at this
          simpa [iterParent] using this.symm
        | succ k2 =>
          right
          refine ⟨k2, by omega, ?_⟩
          have : (f d).bind (iterParent f (k2 + 1)) = some c := hik
          rw [hf] at this
          exact this

theorem iterParent_isSome_of_le (f : Nat → Option Nat) {j n d : Nat} (hj : j ≤ n)
    (h : (iterParent f n d).isSome) : (iterParent f j d).isSome := by
  have hn : n = j + (n - j) := by omega
  rw [hn, iterParent_add] at h
  cases hij : iterParent f j d with
  | none => rw [hij] at h; simp at h
  | some _ => simp

/-- Pigeonhole bound: under acyclicity, a parent chain that is alive after
k+1 steps visits k+1 distinct existing row ids, so k is below the number
of rows. -/
theorem chain_lt_length (cats : List Category)
    (hacyc : Acyclic (parentOfAll cats)) {k d c : Nat}
    (h : iterParent (parentOfAll cats) (k + 1) d = some c) :
    k < cats.length := by
  set f := parentOfAll cats with hfdef
  have hsome : ∀ j, j ≤ k + 1 → (iterParent f j d).isSome := by
    intro j hj
    exact iterParent_isSome_of_le f hj (by rw [h]; rfl)
  -- distinct values along the chain
  have hinj : ∀ x ∈ List.range (k + 1), ∀ y ∈ List.range (k + 1),
      (iterParent f x d).getD 0 = (iterParent f y d).getD 0 → x = y := by
    have key : ∀ x y, x < y → y < k + 1 →
        (iterParent f x d).getD 0 = (iterParent f y d).getD 0 → False := by
      intro x y hxy hy heq
      obtain ⟨vx, hvx⟩ := Option.isSome_iff_exists.mp (hsome x (by omega))
      obtain ⟨vy, hvy⟩ := Option.isSome_iff_exists.mp (hsome y (by omega))
      rw [hvx, hvy] at heq
      simp at heq
      subst heq
      have hy2 : iterParent f y d = (iterParent f x d).bind (iterParent f (y - x)) := by
        conv_lhs => rw [show y = x + (y - x) by omega]
        exact iterParent_add f x (y - x) d
      rw [hvx, hvy] at hy2
      have hcyc : iterParent f (y - x) vx = some vx := by
        simpa using hy2.symm
      have hyx : y - x = (y - x - 1) + 1 := by omega
      rw [hyx] at hcyc
      exact hacyc vx ((transGen_iff_iterParent f vx vx).mpr ⟨y - x - 1, hcyc⟩)
    intro x hx y hy heq
    simp only [List.mem_range] at hx hy
    rcases Nat.lt_trichotomy x y with hlt | heq2 | hgt
    · exact absurd heq (fun he => key x y hlt hy he)
    · exact heq2
    · exact absurd heq.symm (fun he => key y x hgt hx he)
  have hnodup : ((List.range (k + 1)).map
      (fun j => (iterParent f j d).getD 0)).Nodup :=
    List.Nodup.map_on hinj (List.nodup_range _)
  have hsubset : ((List.range (k + 1)).map
      (fun j => (iterParent f j d).getD 0)) ⊆ cats.map (fun c => c.id) := by
    intro x hx
    obtain ⟨j, hj, hjx⟩ := List.mem_map.mp hx
    simp only [List.mem_range] at hj
    obtain ⟨vj, hvj⟩ := Option.isSome_iff_exists.mp (hsome j (by omega))
    -- the chain continues from vj, so vj has a row
    have hstep : (f vj).isSome := by
      have hj1 : (iterParent f (j + 1) d).isSome := hsome (j + 1) (by omega)
      rw [iterParent_add f j 1 d, hvj] at hj1
      simp only [Option.some_bind] at hj1
      show (f vj).isSome
      cases hfv : f vj with
      | none =>
        exfalso
        have : iterParent f 1 vj = (f vj).bind (iterParent f 0) := rfl
        rw [this, hfv] at hj1
        simp at hj1
      | some _ => rfl
    obtain ⟨pj, hpj⟩ := Option.isSome_iff_exists.mp hstep
    have hfind : ∃ cat, findCategoryAll cats vj = some cat := by
      rw [hfdef] at hpj
      unfold parentOfAll at hpj
      cases hfc : findCategoryAll cats vj with
      | none => rw [hfc] at hpj; simp at hpj
      | some cat => exact ⟨cat, rfl⟩
    obtain ⟨cat, hcat⟩ := hfind
    obtain ⟨hcid, hcmem⟩ := findCategoryAll_eq_some hcat
    have hxvj : x = vj := by rw [← hjx, hvj]; rfl
    exact List.mem_map.mpr ⟨cat, hcmem, by rw [hcid, hxvj]⟩
  have hle := (List.subperm_of_subset hnodup hsubset).length_le
  simpa using hle

theorem transGen_mem_ancestorsUp (cats : List Category)
    (hacyc : Acyclic (parentOfAll cats)) {d c : Nat}
    (h : Relation.TransGen (stepFn (parentOfAll cats)) d c) :
    c ∈ ancestorsUp (parentOfAll cats) cats.length d := by
  obtain ⟨k, hk⟩ := (transGen_iff_iterParent _ _ _).mp h
  exact (mem_ancestorsUp_iff _ _ _ _).mpr ⟨k, chain_lt_length cats hacyc hk, hk⟩

theorem transGen_of_mem_ancestorsUp (f : Nat → Option Nat) {fuel d c : Nat}
    (h : c ∈ ancestorsUp f fuel d) : Relation.TransGen (stepFn f) d c := by
  obtain ⟨k, _, hk⟩ := (mem_ancestorsUp_iff f c fuel d).mp h
  exact (transGen_iff_iterParent f d c).mpr ⟨k, hk⟩

/-- On an acyclic store, the modelled get_descendants membership agrees
with proper-descendant reachability through the parent relation. -/
theorem isDescendantOf_iff (cats : List Category)
    (hacyc : Acyclic (parentOfAll cats)) (d a : Nat) :
    isDescendantOf cats d a = true ↔
      Relation.TransGen (stepFn (parentOfAll cats)) d a := by
  unfold isDescendantOf
  rw [decide_eq_true_iff]
  exact ⟨transGen_of_mem_ancestorsUp _, transGen_mem_ancestorsUp cats hacyc⟩

/-- A rank function decreasing along parent edges certifies acyclicity. -/
theorem acyclic_of_rank (cats : List Category) (rank : Nat → Nat)
    (h : cats.all (fun c => match c.parent with
        | none => true
        | some p => decide (rank p < rank c.id)) = true) :
    Acyclic (parentOfAll cats) := by
  have hstep : ∀ a b, parentOfAll cats a = some b → rank b < rank a := by
    intro a b hab
    unfold parentOfAll at hab
    cases hf : findCategoryAll cats a with
    | none => rw [hf] at hab; simp at hab
    | some cat =>
      rw [hf] at hab
      simp only [Option.some_bind] at hab
      obtain ⟨hid, hmem⟩ := findCategoryAll_eq_some hf
      have hall := List.all_eq_true.mp h cat hmem
      rw [hab] at hall
      simp only [decide_eq_true_eq] at hall
      rwa [hid] at hall
  intro i hi
  have hdec : ∀ a b, Relation.TransGen (stepFn (parentOfAll cats)) a b → rank b < rank a := by
    intro a b h2
    induction h2 with
    | single h1 => exact hstep _ _ h1
    | tail _ h2 ih => exact lt_trans (hstep _ _ h2) ih
  exact absurd (hdec i i hi) (lt_irrefl _)

/-- A deterministic relation whose walk from z cycles back to z can be
followed from any point it reaches back around to z. -/
theorem cycle_reach (r : Nat → Nat → Prop)
    (hdet : ∀ a b1 b2, r a b1 → r a b2 → b1 = b2) {z c : Nat}
    (hzc : Relation.ReflTransGen r z c) :
    Relation.TransGen r z z → Relation.ReflTransGen r c z := by
  induction hzc using Relation.ReflTransGen.head_induction_on with
  | refl => intro _; exact Relation.ReflTransGen.refl
  | head h1 h2 ih =>
    intro hcyc
    obtain ⟨w, hw, hwa⟩ := (Relation.TransGen.head'_iff).mp hcyc
    have hwb := hdet _ _ _ hw h1
    subst hwb
    have hbb := Relation.TransGen.tail' hwa h1
    exact (ih hbb).trans hwa

/-- Redirecting the parent of c to np preserves acyclicity whenever c was
not reachable from np in the old map. -/
theorem acyclic_update (f : Nat → Option Nat) (c np : Nat)
    (hacyc : Acyclic f) (hnr : ¬ Relation.ReflTransGen (stepFn f) np c) :
    Acyclic (fun x => if x = c then some np else f x) := by
  intro z hz
  set g := fun x => if x = c then some np else f x with hg
  have hA : ∀ x, Relation.ReflTransGen (stepFn g) np x →
      Relation.ReflTransGen (stepFn f) np x ∧ x ≠ c := by
    intro x h
    induction h with
    | refl =>
      exact ⟨Relation.ReflTransGen.refl,
        fun hc => hnr (hc ▸ Relation.ReflTransGen.refl)⟩
    | @tail b x _ h2 ih =>
      obtain ⟨hfb, hbne⟩ := ih
      have h2f : stepFn f b x := by
        have h2g : (if b = c then some np else f b) = some x := h2
        rwa [if_neg hbne] at h2g
      exact ⟨hfb.tail h2f, fun hx => hnr (hx ▸ hfb.tail h2f)⟩
  have hdet : ∀ a b1 b2, stepFn g a b1 → stepFn g a b2 → b1 = b2 := by
    intro a b1 b2 s1 s2
    have : some b1 = some b2 := by rw [← s1, ← s2]
    exact Option.some.inj this
  by_cases hzc : Relation.ReflTransGen (stepFn g) z c
  · have hcz := cycle_reach (stepFn g) hdet hzc hz
    have hcc : Relation.TransGen (stepFn g) c c :=
      Relation.TransGen.trans_right hcz (Relation.TransGen.trans_left hz hzc)
    obtain ⟨w, hw, hwc⟩ := (Relation.TransGen.head'_iff).mp hcc
    have hwnp : w = np := by
      have hw2 : (if c = c then some np else f c) = some w := hw
      rw [if_pos rfl] at hw2
      exact (Option.some.inj hw2).symm
    subst hwnp
    exact (hA c hwc).2 rfl
  · have ht : ∀ x, Relation.TransGen (stepFn g) z x →
        Relation.TransGen (stepFn f) z x := by
      intro x h
      induction h with
      | single h1 =>
        have hzne : z ≠ c := fun hz2 => hzc (hz2 ▸ Relation.ReflTransGen.refl)
        refine Relation.TransGen.single ?_
        have h1g : (if z = c then some np else f z) = some _ := h1
        rwa [if_neg hzne] at h1g
      | @tail b x h1 h2 ih =>
        have hbne : b ≠ c := fun hbc => hzc (hbc ▸ h1.to_reflTransGen)
        refine ih.tail ?_
        have h2g : (if b = c then some np else f b) = some x := h2
        rwa [if_neg hbne] at h2g
    exact hacyc z (ht z hz)

/-! ## Category service operations -/

/-- Partial update payload for `CategoryService.update_category`: `none`
models a field that is absent or explicitly null, both of which the
source skips (`if value is not None`); `parent_id = some 0` models a
falsy parent_id value, which clears the parent. -/
structure CategoryUpdate where
  name : Option String := none
  slug : Option String := none
  is_active : Option Bool := none
  parent_id : Option Nat := none
deriving Repr, DecidableEq

/-- The committed effect of the update field loop plus `category.save()`:
non-None scalar fields overwrite, and the parent reference is overwritten
when the loop decided a new value (`none` = untouched, `some p` = set to
p, where p may itself be null). -/
def applyCategoryUpdate (cats : List Category) (cid : Nat) (data : CategoryUpdate)
    (newParent : Option (Option Nat)) : List Category :=
  cats.map (fun c =>
    if c.id == cid then
      { c with
        name := data.name.getD c.name,
        slug := data.slug.getD c.slug,
        is_active := data.is_active.getD c.is_active,
        parent := newParent.getD c.parent }
    else c)

/-- `CategoryService.update_category`, returning the store after the call
together with the error, if any. Error paths return before
`category.save()`, so they leave the store unchanged. The slug
regeneration of `Category.save` on an empty slug is not modelled (no
verified claim writes empty slugs). -/
def update_category (cats : List Category) (cid : Nat) (data : CategoryUpdate) :
    List Category × Option String :=
  match findCategory cats cid with
  | none => (cats, some ("Category not found."))
  | some category =>
    match data.parent_id with
    | none => (applyCategoryUpdate cats cid data none, none)
    | some pv =>
      if pv = 0 then (applyCategoryUpdate cats cid data (some none), none)
      else
        match findCategory cats pv with
        | none => (cats, some ("Parent category not found."))
        | some parent =>
          if parent.id == category.id || isDescendantOf cats parent.id category.id then
            (cats, some ("Cannot set category as its own parent or descendant."))
          else (applyCategoryUpdate cats cid data (some (some parent.id)), none)

theorem parentOfAll_applyCategoryUpdate (cats : List Category) (cid : Nat)
    (data : CategoryUpdate) (np : Option (Option Nat)) (x : Nat) :
    parentOfAll (applyCategoryUpdate cats cid data np) x
      = if x = cid then (findCategoryAll cats x).bind (fun c => np.getD c.parent)
        else parentOfAll cats x := by
  unfold parentOfAll findCategoryAll applyCategoryUpdate
  rw [List.find?_map]
  have hpred : ((fun c : Category => c.id == x) ∘
      (fun c : Category =>
        if c.id == cid then
          { c with
            name := data.name.getD c.name,
            slug := data.slug.getD c.slug,
            is_active := data.is_active.getD c.is_active,
            parent := np.getD c.parent }
        else c))
      = (fun c : Category => c.id == x) := by
    funext c
    by_cases hc : c.id = cid <;> simp [hc]
  rw [hpred]
  cases hfind : cats.find? (fun c => c.id == x) with
  | none =>
    by_cases hx : x = cid <;> simp [hx]
  | some c0 =>
    have hc0 : c0.id = x := by
      have := List.find?_some hfind
      simpa using this
    subst hc0
    by_cases hx : c0.id = cid <;> simp [hx]

theorem acyclic_congr {f g : Nat → Option Nat} (h : ∀ x, f x = g x)
    (ha : Acyclic f) : Acyclic g := by
  have hfg : f = g := funext h
  rwa [hfg] at ha

theorem acyclic_of_subedges {f g : Nat → Option Nat}
    (h : ∀ a b, g a = some b → f a = some b) (ha : Acyclic f) : Acyclic g := by
  intro i hi
  exact ha i (Relation.TransGen.mono h hi)

theorem findCategoryAll_isSome_of_findCategory {cats : List Category} {i : Nat}
    {cat : Category} (h : findCategory cats i = some cat) :
    ∃ c0, findCategoryAll cats i = some c0 := by
  obtain ⟨hid, _, hmem⟩ := findCategory_eq_some h
  cases hf : findCategoryAll cats i with
  | none =>
    exfalso
    have hnone := List.find?_eq_none.mp hf cat hmem
    simp [hid] at hnone
  | some c0 => exact ⟨c0, rfl⟩

/-- Every outcome of `update_category` leaves the parent graph acyclic if
it was acyclic before the call. -/
theorem update_category_preserves_acyclic (cats : List Category) (cid : Nat)
    (data : CategoryUpdate) (hacyc : Acyclic (parentOfAll cats)) :
    Acyclic (parentOfAll (update_category cats cid data).1) := by
  unfold update_category
  cases hfc : findCategory cats cid with
  | none => exact hacyc
  | some category =>
    dsimp only
    obtain ⟨hcid, hcdel, hcmem⟩ := findCategory_eq_some hfc
    cases hdp : data.parent_id with
    | none =>
      dsimp only
      refine acyclic_congr (g := parentOfAll (applyCategoryUpdate cats cid data none)) ?_ hacyc
      intro x
      rw [parentOfAll_applyCategoryUpdate]
      by_cases hx : x = cid
      · rw [if_pos hx]
        rfl
      · rw [if_neg hx]
    | some pv =>
      dsimp only
      by_cases hpv : pv = 0
      · rw [if_pos hpv]
        dsimp only
        refine acyclic_of_subedges (f := parentOfAll cats) ?_ hacyc
        intro a b hab
        rw [parentOfAll_applyCategoryUpdate] at hab
        by_cases hax : a = cid
        · rw [if_pos hax] at hab
          exfalso
          cases hf2 : findCategoryAll cats a <;> rw [hf2] at hab <;> simp at hab
        · rwa [if_neg hax] at hab
      · rw [if_neg hpv]
        cases hfp : findCategory cats pv with
        | none => exact hacyc
        | some parent =>
          dsimp only
          obtain ⟨hpid, hpdel, hpmem⟩ := findCategory_eq_some hfp
          by_cases hchk :
              (parent.id == category.id || isDescendantOf cats parent.id category.id) = true
          · rw [if_pos hchk]
            exact hacyc
          · rw [if_neg hchk]
            dsimp only
            have hpne : parent.id ≠ category.id := by
              intro he
              apply hchk
              simp [he]
            have hdesc : isDescendantOf cats parent.id category.id = false := by
              cases hb : isDescendantOf cats parent.id category.id with
              | false => rfl
              | true =>
                exfalso
                apply hchk
                simp [hb]
            have hnr : ¬ Relation.ReflTransGen (stepFn (parentOfAll cats))
                parent.id category.id := by
              intro hr
              rcases Relation.reflTransGen_iff_eq_or_transGen.mp hr with he | ht
              · exact hpne he.symm
              · rw [(isDescendantOf_iff cats hacyc parent.id category.id).mpr ht] at hdesc
                exact absurd hdesc (by simp)
            have hup := acyclic_update (parentOfAll cats) category.id parent.id hacyc hnr
            refine acyclic_congr
              (g := parentOfAll (applyCategoryUpdate cats cid data (some (some parent.id))))
              ?_ hup
            intro x
            rw [parentOfAll_applyCategoryUpdate, hcid]
            by_cases hx : x = cid
            · rw [if_pos hx, if_pos hx]
              obtain ⟨c0, hc0⟩ := findCategoryAll_isSome_of_findCategory hfc
              rw [hx, hc0]
              rfl
            · rw [if_neg hx, if_neg hx]

/-- Claim C6: updating the parent of a category c to c itself or to any
descendant of c fails with the CircularReference error and leaves the
store unchanged, and the parent graph stays acyclic after every update.
Hypotheses: the store is acyclic, both rows are live, and the requested
parent id is nonzero (a falsy parent_id means clear the parent in the
source). -/
theorem claim_C6 (cats : List Category) (cid pv : Nat) (data : CategoryUpdate)
    (hacyc : Acyclic (parentOfAll cats))
    (hc : (findCategory cats cid).isSome = true)
    (hp : (findCategory cats pv).isSome = true)
    (hpv0 : pv ≠ 0)
    (hdata : data.parent_id = some pv)
    (hcirc : pv = cid ∨ Relation.TransGen (stepFn (parentOfAll cats)) pv cid) :
    update_category cats cid data
        = (cats, some ("Cannot set category as its own parent or descendant."))
      ∧ ∀ (cid2 : Nat) (d2 : CategoryUpdate),
          Acyclic (parentOfAll (update_category cats cid2 d2).1) := by
  constructor
  · obtain ⟨category, hfc⟩ := Option.isSome_iff_exists.mp hc
    obtain ⟨parent, hfp⟩ := Option.isSome_iff_exists.mp hp
    obtain ⟨hcid, -, -⟩ := findCategory_eq_some hfc
    obtain ⟨hpid, -, -⟩ := findCategory_eq_some hfp
    have hchk :
        (parent.id == category.id || isDescendantOf cats parent.id category.id) = true := by
      rcases hcirc with h | h
      · have he : parent.id = category.id := by rw [hpid, hcid, h]
        simp [he]
      · have hb : isDescendantOf cats pv cid = true :=
          (isDescendantOf_iff cats hacyc pv cid).mpr h
        rw [hpid, hcid]
        simp [hb]
    unfold update_category
    rw [hfc]
    dsimp only
    rw [hdata]
    dsimp only
    rw [if_neg hpv0, hfp]
    dsimp only
    rw [if_pos hchk]
  · intro cid2 d2
    exact update_category_preserves_acyclic cats cid2 d2 hacyc

/-- A two-node store: category 2 is a child of category 1. -/
def exCats6 : List Category :=
  [{ id := 1, name := "Root", slug := "root", parent := none,
     is_active := true, deleted := false },
   { id := 2, name := "Child", slug := "child", parent := some 1,
     is_active := true, deleted := false }]

theorem claim_C6_witness :
    update_category exCats6 1 { parent_id := some 2 }
        = (exCats6, some ("Cannot set category as its own parent or descendant.")) ∧
      Acyclic (parentOfAll (update_category exCats6 1 { parent_id := some 2 }).1) := by
  have hacyc : Acyclic (parentOfAll exCats6) :=
    acyclic_of_rank exCats6 (fun i => i) (by decide)
  have h := claim_C6 exCats6 1 2 { parent_id := some 2 } hacyc (by decide) (by decide)
    (by decide) rfl
    (Or.inr (Relation.TransGen.single (show parentOfAll exCats6 2 = some 1 by decide)))
  exact ⟨h.1, h.2 1 { parent_id := some 2 }⟩

/-! ## Deleting categories -/

/-- The catalog store visible to the category and product services. -/
structure Db where
  categories : List Category
  products : List Product
deriving Repr, DecidableEq

/-- Tombstoning pass of `CategoryService.delete_category`:
`category.soft_delete()` followed by `child.soft_delete()` for every
child in `category.get_descendants()`. -/
def markSubtreeDeleted (cats : List Category) (cid : Nat) (c : Category) : Category :=
  if c.id == cid || isDescendantOf cats c.id cid then { c with deleted := true } else c

/-- `CategoryService.delete_category` with the default soft deletion: a
live row is required, a direct non-deleted product blocks with the
HasProducts error before any write, otherwise the whole subtree is
tombstoned. Returns the store after the call, the success flag and the
error. -/
def delete_category (db : Db) (cid : Nat) : Db × Bool × Option String :=
  match findCategory db.categories cid with
  | none => (db, false, some ("Category not found."))
  | some category =>
    if db.products.any (fun p => p.category_id == category.id && !p.deleted) then
      (db, false,
        some ("Cannot delete category with products. Move or delete products first."))
    else
      ({ categories := db.categories.map (markSubtreeDeleted db.categories category.id),
          products := db.products }, true, none)

/-- Claim C5: deleteCategory fails with HasProducts iff the category
itself directly has at least one non-deleted product (products in
descendant categories do not block deletion); on that failure it performs
no mutation; otherwise it tombstones the category and, cascading, all of
its descendants. -/
theorem claim_C5 (db : Db) (cid : Nat) (cat : Category)
    (hfound : findCategory db.categories cid = some cat)
    (hacyc : Acyclic (parentOfAll db.categories)) :
    ((delete_category db cid).2.2
        = some ("Cannot delete category with products. Move or delete products first.") ↔
      ∃ p ∈ db.products, p.category_id = cid ∧ p.deleted = false) ∧
      ((∃ p ∈ db.products, p.category_id = cid ∧ p.deleted = false) →
        delete_category db cid
          = (db, false,
              some ("Cannot delete category with products. Move or delete products first."))) ∧
      ((¬ ∃ p ∈ db.products, p.category_id = cid ∧ p.deleted = false) →
        (delete_category db cid).2 = (true, none) ∧
        (delete_category db cid).1.products = db.products ∧
        (delete_category db cid).1.categories
          = db.categories.map (markSubtreeDeleted db.categories cid) ∧
        (∀ c ∈ db.categories,
          (c.id = cid ∨ Relation.TransGen (stepFn (parentOfAll db.categories)) c.id cid) →
            markSubtreeDeleted db.categories cid c = { c with deleted := true }) ∧
        (∀ c ∈ db.categories,
          c.id ≠ cid → ¬ Relation.TransGen (stepFn (parentOfAll db.categories)) c.id cid →
            markSubtreeDeleted db.categories cid c = c)) := by
  obtain ⟨hcid, hcdel, hcmem⟩ := findCategory_eq_some hfound
  unfold delete_category
  rw [hfound]
  dsimp only
  by_cases hany : db.products.any (fun p => p.category_id == cat.id && !p.deleted) = true
  · rw [if_pos hany]
    have hex : ∃ p ∈ db.products, p.category_id = cid ∧ p.deleted = false := by
      obtain ⟨p, hm, hp⟩ := List.any_eq_true.mp hany
      simp only [Bool.and_eq_true, beq_iff_eq, Bool.not_eq_true'] at hp
      exact ⟨p, hm, hp.1.trans hcid, hp.2⟩
    exact ⟨iff_of_true rfl hex, fun _ => rfl, fun hne => absurd hex hne⟩
  · rw [if_neg hany]
    have hnex : ¬ ∃ p ∈ db.products, p.category_id = cid ∧ p.deleted = false := by
      rintro ⟨p, hm, h1, h2⟩
      apply hany
      refine List.any_eq_true.mpr ⟨p, hm, ?_⟩
      simp [h1, hcid, h2]
    refine ⟨iff_of_false (by simp) hnex, fun hex => absurd hex hnex,
      fun _ => ⟨rfl, rfl, by rw [hcid], ?_, ?_⟩⟩
    · intro c _ hcond
      unfold markSubtreeDeleted
      have hb : (c.id == cid || isDescendantOf db.categories c.id cid) = true := by
        rcases hcond with h | h
        · simp [h]
        · simp [(isDescendantOf_iff db.categories hacyc c.id cid).mpr h]
      rw [if_pos hb]
    · intro c _ hne htg
      unfold markSubtreeDeleted
      have h1 : (c.id == cid) = false := by simp [hne]
      have h2 : isDescendantOf db.categories c.id cid = false := by
        cases hb : isDescendantOf db.categories c.id cid with
        | false => rfl
        | true => exact absurd ((isDescendantOf_iff db.categories hacyc c.id cid).mp hb) htg
      rw [if_neg (by simp [h1, h2])]

/-- A store whose child category holds the only product: the root has no
direct products, so deleting the root succeeds and cascades. -/
def exDb5 : Db :=
  { categories := exCats6,
    products := [{ id := 1, name := "Prod", base_price := 100, category_id := 2,
                   is_active := true, is_featured := false, created_at := 0,
                   deleted := false, variants := [] }] }

theorem claim_C5_witness :
    (delete_category exDb5 1).2 = (true, none) ∧
      (delete_category exDb5 1).1.categories
        = exDb5.categories.map (markSubtreeDeleted exDb5.categories 1) := by
  have hacyc : Acyclic (parentOfAll exDb5.categories) :=
    acyclic_of_rank exDb5.categories (fun i => i) (by decide)
  have hfound : findCategory exDb5.categories 1
      = some { id := 1, name := "Root", slug := "root", parent := none,
               is_active := true, deleted := false } := by decide
  have h := claim_C5 exDb5 1 _ hfound hacyc
  have hno : ¬ ∃ p ∈ exDb5.products, p.category_id = 1 ∧ p.deleted = false := by
    rintro ⟨p, hm, h1, h2⟩
    simp only [exDb5, List.mem_singleton] at hm
    rw [hm] at h1
    exact absurd h1 (by decide)
  exact ⟨(h.2.2 hno).1, (h.2.2 hno).2.2.1⟩

/-! ## The product listing pipeline (`ProductService.list_products`)

The queryset is narrowed by conjunctive stages in source order; the
search and attribute-value filters, further conjunctive stages of the
same shape, are not exercised by the verified claims and are left out. -/

/-- Filters of a listing query, with the defaults `filters.get` supplies. -/
structure ListFilters where
  category_slug : Option String := none
  min_price : Option Int := none
  max_price : Option Int := none
  is_featured : Option Bool := none
  in_stock_only : Bool := false
  sort_by : String := "created_at"
  sort_order : String := "desc"
  page : Int := 1
  page_size : Int := 20
deriving Repr, DecidableEq

/-- The min-price stage:
`Q(base_price__gte=m) | Q(variants__price__gte=m, variants__is_active=True)`.
The reverse join runs over the variant table rows themselves, so
soft-deleted variant rows participate; a NULL price compares false. -/
def minPriceOk (mo : Option Int) (p : Product) : Bool :=
  match mo with
  | none => true
  | some m => decide (m ≤ p.base_price)
      || p.variants.any (fun v => v.is_active && v.price.any (fun pr => decide (m ≤ pr)))

/-- The max-price stage, the mirror image of the min-price stage. -/
def maxPriceOk (mo : Option Int) (p : Product) : Bool :=
  match mo with
  | none => true
  | some m => decide (p.base_price ≤ m)
      || p.variants.any (fun v => v.is_active && v.price.any (fun pr => decide (pr ≤ m)))

/-- The featured stage: exact match when requested. -/
def featuredOk (fo : Option Bool) (p : Product) : Bool :=
  match fo with
  | none => true
  | some b => p.is_featured == b

/-- The in-stock stage: a joined variant row that is active with stock
above zero. -/
def stockOk (only : Bool) (p : Product) : Bool :=
  !only || p.variants.any (fun v => v.is_active && decide (0 < v.stock_quantity))

/-- `category.get_descendants(include_self=True)` id list. -/
def subtreeIds (cats : List Category) (cid : Nat) : List Nat :=
  cid :: (cats.filter (fun c => isDescendantOf cats c.id cid)).map (fun c => c.id)

/-- The base queryset and category stage of `list_products`: active,
non-deleted products; when a non-empty category slug is given (Python
truthiness skips an empty one), a live active category with that slug is
looked up and products are restricted to its subtree, a miss yielding the
empty queryset rather than an error. -/
def categoryStage (db : Db) (slug : Option String) : List Product :=
  let q0 := db.products.filter (fun p => !p.deleted && p.is_active)
  match slug with
  | none => q0
  | some s =>
    if s = "" then q0
    else
      match db.categories.find? (fun c => c.slug == s && c.is_active && !c.deleted) with
      | none => []
      | some cat =>
          q0.filter (fun p => (subtreeIds db.categories cat.id).contains p.category_id)

/-- All conjunctive filter stages of `list_products` in source order. -/
def listFiltered (db : Db) (f : ListFilters) : List Product :=
  ((((categoryStage db f.category_slug).filter (minPriceOk f.min_price)).filter
      (maxPriceOk f.max_price)).filter (featuredOk f.is_featured)).filter
    (stockOk f.in_stock_only)

/-- Sorted insertion, the helper of the stable sort modelling ORDER BY. -/
def insertLe (le : Product → Product → Bool) (x : Product) : List Product → List Product
  | [] => [x]
  | y :: ys => if le x y then x :: y :: ys else y :: insertLe le x ys

/-- Stable insertion sort modelling ORDER BY (no claim depends on the
order of ties, which the store leaves unspecified). -/
def sortLe (le : Product → Product → Bool) : List Product → List Product
  | [] => []
  | x :: xs => insertLe le x (sortLe le xs)

/-- The comparison derived from sort_by and sort_order with the source
defaults: unknown sort fields fall back to created_at, descending unless
asc was requested. -/
def productLe (f : ListFilters) (a b : Product) : Bool :=
  let key : Product → Product → Bool :=
    if f.sort_by = "price" then fun x y => decide (x.base_price ≤ y.base_price)
    else if f.sort_by = "name" then fun x y => decide (x.name ≤ y.name)
    else fun x y => decide (x.created_at ≤ y.created_at)
  if f.sort_order = "desc" then key b a else key a b

/-- The ORDER BY step of `list_products`. -/
def sortProducts (f : ListFilters) (l : List Product) : List Product :=
  sortLe (productLe f) l

theorem insertLe_perm (le : Product → Product → Bool) (x : Product) (l : List Product) :
    List.Perm (insertLe le x l) (x :: l) := by
  induction l with
  | nil => exact List.Perm.refl _
  | cons y ys ih =>
    unfold insertLe
    by_cases h : le x y
    · rw [if_pos h]
    · rw [if_neg h]
      exact (List.Perm.cons y ih).trans (List.Perm.swap x y ys)

theorem sortLe_perm (le : Product → Product → Bool) (l : List Product) :
    List.Perm (sortLe le l) l := by
  induction l with
  | nil => exact List.Perm.refl _
  | cons x xs ih => exact (insertLe_perm le x (sortLe le xs)).trans (List.Perm.cons x ih)

theorem sortProducts_length (f : ListFilters) (l : List Product) :
    (sortProducts f l).length = l.length :=
  (sortLe_perm (productLe f) l).length_eq

theorem mem_sortProducts (f : ListFilters) (l : List Product) (p : Product) :
    p ∈ sortProducts f l ↔ p ∈ l :=
  (sortLe_perm (productLe f) l).mem_iff

/-- The pagination metadata of the listing response. -/
structure Pagination where
  page : Int
  page_size : Int
  total_items : Nat
  total_pages : Nat
  has_next : Bool
  has_prev : Bool
deriving Repr, DecidableEq

/-- `django.core.paginator.Paginator.num_pages` with the default settings
(orphans 0, allow_empty_first_page true) and a positive page size:
ceiling of count over per_page, and at least 1. -/
def paginatorNumPages (count per_page : Nat) : Nat :=
  max 1 ((count + per_page - 1) / per_page)

/-- `Paginator.get_page`: page numbers below 1 or above the page count
are clamped to the last page, never an error. -/
def getPageNumber (count per_page : Nat) (page : Int) : Nat :=
  let np := paginatorNumPages count per_page
  if page < 1 then np
  else if (np : Int) < page then np
  else page.toNat

/-- `ProductService.list_products`: filter, sort, cap the requested page
size at 100, paginate with `Paginator.get_page`, and report the
pagination metadata, whose page field echoes the requested page. An
effective page size below 1 makes the Paginator raise (division by zero,
or an EmptyPage escaping `Paginator.page`), which surfaces as an error
response. -/
def list_products (db : Db) (f : ListFilters) :
    Except String (List Product × Pagination) :=
  let sorted := sortProducts f (listFiltered db f)
  let page_size := min f.page_size 100
  if page_size ≤ 0 then Except.error ("Paginator error")
  else
    let pp := page_size.toNat
    let count := sorted.length
    let np := paginatorNumPages count pp
    let n := getPageNumber count pp f.page
    Except.ok ((sorted.drop ((n - 1) * pp)).take pp,
      { page := f.page, page_size := page_size, total_items := count,
        total_pages := np, has_next := decide (n < np), has_prev := decide (1 < n) })

theorem paginatorNumPages_zero (pp : Nat) : paginatorNumPages 0 pp = 1 := by
  unfold paginatorNumPages
  cases pp with
  | zero => rfl
  | succ k =>
    have hd : (0 + (k + 1) - 1) / (k + 1) = 0 := Nat.div_eq_of_lt (by omega)
    rw [hd]
    simp

theorem getPageNumber_zero (pp : Nat) (page : Int) : getPageNumber 0 pp page = 1 := by
  unfold getPageNumber
  rw [paginatorNumPages_zero]
  by_cases h1 : page < 1
  · rw [if_pos h1]
  · rw [if_neg h1]
    by_cases h2 : ((1 : Nat) : Int) < page
    · rw [if_pos h2]
    · rw [if_neg h2]
      have : page = 1 := by omega
      rw [this]
      rfl

/-- Claim C9: a listing query whose category slug matches no active,
non-deleted category returns an empty item list with a total of 0 rather
than a NotFound error. The slug is non-empty (an empty one is falsy and
skips the filter in the source) and the requested page size is at least 1
(the Paginator raises on smaller ones for every query). -/
theorem claim_C9 (db : Db) (f : ListFilters) (s : String)
    (hs : f.category_slug = some s) (hne : s ≠ "")
    (hmiss : ∀ c ∈ db.categories, ¬(c.slug = s ∧ c.is_active = true ∧ c.deleted = false))
    (hps : 1 ≤ f.page_size) :
    list_products db f
      = Except.ok ([],
          { page := f.page, page_size := min f.page_size 100, total_items := 0,
            total_pages := 1, has_next := false, has_prev := false }) := by
  have hfind : db.categories.find? (fun c => c.slug == s && c.is_active && !c.deleted)
      = none := by
    rw [List.find?_eq_none]
    intro c hc hpred
    simp only [Bool.and_eq_true, beq_iff_eq, Bool.not_eq_true'] at hpred
    exact hmiss c hc ⟨hpred.1.1, hpred.1.2, hpred.2⟩
  have hstage : categoryStage db f.category_slug = [] := by
    unfold categoryStage
    rw [hs]
    dsimp only
    rw [if_neg hne, hfind]
  have hfilt : listFiltered db f = [] := by
    unfold listFiltered
    rw [hstage]
    rfl
  have hsorted : sortProducts f (listFiltered db f) = [] := by
    rw [hfilt]
    rfl
  have hmin1 : (1 : Int) ≤ min f.page_size 100 := le_min hps (by norm_num)
  have hcond : ¬ (min f.page_size 100 ≤ 0) := by omega
  unfold list_products
  simp only [hsorted]
  rw [if_neg hcond]
  have hlen : ([] : List Product).length = 0 := rfl
  rw [hlen, paginatorNumPages_zero, getPageNumber_zero]
  simp

theorem claim_C9_witness :
    list_products { categories := [], products := [] } { category_slug := some ("ghost") }
      = Except.ok ([],
          { page := 1, page_size := 20, total_items := 0,
            total_pages := 1, has_next := false, has_prev := false }) := by
  have h := claim_C9 { categories := [], products := [] }
    { category_slug := some ("ghost") } "ghost" rfl (by decide)
    (by intro c hc; simp at hc) (by norm_num)
  simpa using h

/-- Claim C8: for every listing query that returns, the effective page
size is the requested one capped at 100, at most 100 items come back, and
the response carries the total item count, total page count, has-next and
has-prev flags computed from the clamped page number. -/
theorem claim_C8 (db : Db) (f : ListFilters) (items : List Product) (pg : Pagination)
    (h : list_products db f = Except.ok (items, pg)) :
    pg.page_size = min f.page_size 100 ∧
      pg.page_size ≤ 100 ∧
      items.length ≤ 100 ∧
      pg.page = f.page ∧
      pg.total_items = (listFiltered db f).length ∧
      pg.total_pages = paginatorNumPages pg.total_items pg.page_size.toNat ∧
      (pg.has_next = true ↔
        getPageNumber pg.total_items pg.page_size.toNat f.page < pg.total_pages) ∧
      (pg.has_prev = true ↔
        1 < getPageNumber pg.total_items pg.page_size.toNat f.page) := by
  unfold list_products at h
  by_cases hcond : min f.page_size 100 ≤ 0
  · rw [if_pos hcond] at h
    cases h
  · rw [if_neg hcond] at h
    have hinj := Except.ok.inj h
    obtain ⟨hitems, hpg⟩ := Prod.mk.inj hinj
    subst hpg
    subst hitems
    have hlen : (sortProducts f (listFiltered db f)).length = (listFiltered db f).length :=
      sortProducts_length f (listFiltered db f)
    refine ⟨rfl, min_le_right _ _, ?_, rfl, hlen, rfl, ?_, ?_⟩
    · calc (((sortProducts f (listFiltered db f)).drop _).take
            (min f.page_size 100).toNat).length
          ≤ (min f.page_size 100).toNat := by
            rw [List.length_take]
            exact min_le_left _ _
        _ ≤ ((100 : Int)).toNat := Int.toNat_le_toNat (min_le_right _ _)
        _ = 100 := rfl
    · exact decide_eq_true_iff
    · exact decide_eq_true_iff

theorem numPages_pred_mul_lt (count pp : Nat) (hc : 0 < count) (hp : 0 < pp) :
    (paginatorNumPages count pp - 1) * pp < count := by
  unfold paginatorNumPages
  have hq1 : 1 ≤ (count + pp - 1) / pp := by
    rw [Nat.le_div_iff_mul_le hp]
    omega
  rw [max_eq_right hq1]
  have hq : (count + pp - 1) / pp * pp ≤ count + pp - 1 := Nat.div_mul_le_self _ _
  rw [Nat.sub_mul, one_mul]
  omega

/-- A store holding exactly one listable product. -/
def exProd4 : Product :=
  { id := 9, name := "Solo", base_price := 500, category_id := 1, is_active := true,
    is_featured := false, created_at := 0, deleted := false, variants := [] }

def exDb4 : Db := { categories := [], products := [exProd4] }

/-- A query for page 5 of a one-page listing. -/
def exF4 : ListFilters := { page := 5 }

/-- The pagination metadata the source produces for that query. -/
def exPg4 : Pagination :=
  { page := 5, page_size := 20, total_items := 1, total_pages := 1,
    has_next := false, has_prev := false }

/-- Counterexample to claim C4 as stated: requesting page 5 of a listing
with a single page returns that page 1 item (get_page clamps out-of-range
pages to the last page), not an empty item list. -/
theorem counterexample_C4 :
    list_products exDb4 exF4 = Except.ok ([exProd4], exPg4) ∧
      (exPg4.total_pages : Int) < exF4.page ∧ ([exProd4] : List Product) ≠ [] := by
  refine ⟨rfl, by decide, by simp⟩

/-- Claim C4 (amended): a page number beyond the last page is clamped by
`Paginator.get_page` to the last page, whose items are returned; the item
list is empty only when no product matched at all. -/
theorem claim_C4_amended (db : Db) (f : ListFilters) (items : List Product)
    (pg : Pagination) (h : list_products db f = Except.ok (items, pg))
    (hbeyond : (pg.total_pages : Int) < f.page) :
    items = ((sortProducts f (listFiltered db f)).drop
        ((pg.total_pages - 1) * (min f.page_size 100).toNat)).take
        (min f.page_size 100).toNat
      ∧ (0 < pg.total_items → items ≠ []) := by
  unfold list_products at h
  by_cases hcond : min f.page_size 100 ≤ 0
  · rw [if_pos hcond] at h
    cases h
  · rw [if_neg hcond] at h
    obtain ⟨hitems, hpg⟩ := Prod.mk.inj (Except.ok.inj h)
    subst hpg
    dsimp only at hbeyond ⊢
    have hppos : 0 < (min f.page_size 100).toNat := by omega
    have hnp1 : 1 ≤ paginatorNumPages (sortProducts f (listFiltered db f)).length
        (min f.page_size 100).toNat := le_max_left 1 _
    have hn : getPageNumber (sortProducts f (listFiltered db f)).length
        (min f.page_size 100).toNat f.page
        = paginatorNumPages (sortProducts f (listFiltered db f)).length
            (min f.page_size 100).toNat := by
      unfold getPageNumber
      rw [if_neg (by omega), if_pos hbeyond]
    rw [hn] at hitems
    refine ⟨hitems.symm, ?_⟩
    intro hpos
    rw [← hitems]
    have hlt : (paginatorNumPages (sortProducts f (listFiltered db f)).length
          (min f.page_size 100).toNat - 1) * (min f.page_size 100).toNat
        < (sortProducts f (listFiltered db f)).length :=
      numPages_pred_mul_lt _ _ hpos hppos
    apply List.ne_nil_of_length_pos
    rw [List.length_take, List.length_drop]
    exact lt_min hppos (by omega)

theorem claim_C4_witness :
    ([exProd4] : List Product)
        = ((sortProducts exF4 (listFiltered exDb4 exF4)).drop
            ((exPg4.total_pages - 1) * (min exF4.page_size 100).toNat)).take
            (min exF4.page_size 100).toNat
      ∧ (0 < exPg4.total_items → ([exProd4] : List Product) ≠ []) :=
  claim_C4_amended exDb4 exF4 [exProd4] exPg4 rfl (by decide)

theorem claim_C8_witness :
    exPg4.page_size = min exF4.page_size 100 ∧
      exPg4.page_size ≤ 100 ∧
      ([exProd4] : List Product).length ≤ 100 ∧
      exPg4.page = exF4.page ∧
      exPg4.total_items = (listFiltered exDb4 exF4).length ∧
      exPg4.total_pages = paginatorNumPages exPg4.total_items exPg4.page_size.toNat ∧
      (exPg4.has_next = true ↔
        getPageNumber exPg4.total_items exPg4.page_size.toNat exF4.page
          < exPg4.total_pages) ∧
      (exPg4.has_prev = true ↔
        1 < getPageNumber exPg4.total_items exPg4.page_size.toNat exF4.page) :=
  claim_C8 exDb4 exF4 [exProd4] exPg4 rfl

/-- The predicate claim C3 states: the base price or some active variant
price override falls within the closed range. -/
def inPriceRangeSpec (p : Product) (mn mx : Int) : Bool :=
  (decide (mn ≤ p.base_price) && decide (p.base_price ≤ mx))
    || p.variants.any (fun v => !v.deleted && v.is_active
        && v.price.any (fun pr => decide (mn ≤ pr) && decide (pr ≤ mx)))

/-- An active variant row priced above the example range. -/
def exVar3 : Variant :=
  { id := 40, sku := "V40", name := "X", price := some 15000, stock_quantity := 1,
    low_stock_threshold := 5, is_active := true, deleted := false }

/-- Base price below the range, variant override above it: neither falls
inside the range [10000, 12000]. -/
def exProd3 : Product :=
  { id := 41, name := "Wide", base_price := 5000, category_id := 1, is_active := true,
    is_featured := false, created_at := 0, deleted := false, variants := [exVar3] }

def exDb3 : Db := { categories := [], products := [exProd3] }

def exF3 : ListFilters := { min_price := some 10000, max_price := some 12000 }

/-- Counterexample to claim C3 as stated: the two price bounds are
separate filters, so a product whose base price satisfies only the upper
bound and whose variant override satisfies only the lower bound is
listed, though neither price falls within the range. -/
theorem counterexample_C3 :
    listFiltered exDb3 exF3 = [exProd3] ∧
      inPriceRangeSpec exProd3 10000 12000 = false :=
  ⟨rfl, by decide⟩

theorem option_any_eq_true (q : Int → Bool) (o : Option Int) :
    o.any q = true ↔ ∃ a, o = some a ∧ q a = true := by
  cases o <;> simp [Option.any]

/-- Claim C3 (amended): with a price range given, a product is listed iff
it passes the other stages and each bound is satisfied independently: its
base price or some active variant row price override is at least the
minimum, AND its base price or some active variant row price override is
at most the maximum (possibly different prices for the two bounds). -/
theorem claim_C3_amended (db : Db) (f : ListFilters) (mn mx : Int) (p : Product)
    (hmn : f.min_price = some mn) (hmx : f.max_price = some mx) :
    p ∈ listFiltered db f ↔
      (p ∈ listFiltered db { f with min_price := none, max_price := none }
        ∧ (mn ≤ p.base_price ∨ ∃ v ∈ p.variants, v.is_active = true ∧
            ∃ pr, v.price = some pr ∧ mn ≤ pr)
        ∧ (p.base_price ≤ mx ∨ ∃ v ∈ p.variants, v.is_active = true ∧
            ∃ pr, v.price = some pr ∧ pr ≤ mx)) := by
  unfold listFiltered
  rw [hmn, hmx]
  dsimp only
  have hminN : ∀ q : Product, minPriceOk none q = true := fun _ => rfl
  have hmaxN : ∀ q : Product, maxPriceOk none q = true := fun _ => rfl
  have hminE : minPriceOk (some mn) p = true ↔
      (mn ≤ p.base_price ∨ ∃ v ∈ p.variants, v.is_active = true ∧
        ∃ pr, v.price = some pr ∧ mn ≤ pr) := by
    simp [minPriceOk, List.any_eq_true, option_any_eq_true, Bool.and_eq_true, and_assoc]
  have hmaxE : maxPriceOk (some mx) p = true ↔
      (p.base_price ≤ mx ∨ ∃ v ∈ p.variants, v.is_active = true ∧
        ∃ pr, v.price = some pr ∧ pr ≤ mx) := by
    simp [maxPriceOk, List.any_eq_true, option_any_eq_true, Bool.and_eq_true, and_assoc]
  simp only [List.mem_filter, hminN, hmaxN, and_true, hminE, hmaxE]
  constructor
  · rintro ⟨⟨⟨⟨h1, h2⟩, h3⟩, h4⟩, h5⟩
    exact ⟨⟨⟨h1, h4⟩, h5⟩, h2, h3⟩
  · rintro ⟨⟨⟨h1, h4⟩, h5⟩, h2, h3⟩
    exact ⟨⟨⟨⟨h1, h2⟩, h3⟩, h4⟩, h5⟩

theorem claim_C3_witness :
    (exProd3 ∈ listFiltered exDb3 exF3 ↔
        (exProd3 ∈ listFiltered exDb3 { exF3 with min_price := none, max_price := none }
          ∧ (10000 ≤ exProd3.base_price ∨ ∃ v ∈ exProd3.variants, v.is_active = true ∧
              ∃ pr, v.price = some pr ∧ 10000 ≤ pr)
          ∧ (exProd3.base_price ≤ 12000 ∨ ∃ v ∈ exProd3.variants, v.is_active = true ∧
              ∃ pr, v.price = some pr ∧ pr ≤ 12000))) ∧
      exProd3 ∈ listFiltered exDb3 exF3 :=
  ⟨claim_C3_amended exDb3 exF3 10000 12000 exProd3 rfl rfl, by decide⟩

end Catalog
